import Mathlib

/-!
Shallow embedding of the snapshot codec of the yrc-oss image gallery:
the ingestion tree builder (`parseFilesToTree`), the export transcoder
(`processImageForExport`), the snapshot serializer (`serializeTree`), the
typed deserializer (`deserializeTree`), and the dynamic import path
(`handleImport` over parsed JSON), together with theorems about them.

Machine integers do not occur: all sizes are natural numbers, and the one
fractional computation (`Math.round(dim * 1024 / shortEdge)`) is modelled
exactly as `⌊(dim * 1024) / shortEdge + 1/2⌋` over the rationals, realised
with natural-number division.
-/

namespace Yrc

/-- The `type` tag of a tree node: `'file' | 'folder'` (src/types.ts). -/
inductive NodeType where
  | file
  | folder
  deriving DecidableEq, Repr

/-- Abstract outcome of pushing one picked file through the
`FileReader` read, the `Image` decode, and the canvas-context acquisition
inside `processImageForExport`:
`readError` models `reader.onerror`, `decodeError` models `img.onerror`,
`noContext` models `canvas.getContext('2d')` returning null, and
`decoded` models a successful decode to a pixel surface of the given size. -/
inductive ImageOutcome where
  | readError
  | decodeError
  | noContext
  | decoded (width height : Nat) (pixels : String)
  deriving DecidableEq, Repr

/-- A host `File` from the directory picker, with exactly the properties the
code reads: `name`, `webkitRelativePath` (the empty string models the
absent/falsy case), the mime `type`, and the abstract processing outcome of
its bytes. -/
structure InputFile where
  name : String
  webkitRelativePath : String
  type : String
  image : ImageOutcome
  deriving DecidableEq, Repr

/-- The `file` field of a live node: either the original picked host file,
or the `File` that `deserializeTree` synthesizes from a snapshot blob
(`new File([blob], node.name, { type: blob.type })`). -/
inductive FileObj where
  | picked (f : InputFile)
  | restored (name : String) (mime : Option String) (data : String)
  deriving DecidableEq, Repr

/-- Live tree node (src/types.ts `FileNode`). The `parent` back-reference is
navigation-only and cyclic, hence not representable in a purely functional
tree and omitted; the blob `url` is a host-generated token, so only its
presence is modelled. `isDeleted = none` models the absent/undefined field. -/
inductive FileNode where
  | mk (id name path : String) (type : NodeType) (children : List FileNode)
      (file : Option FileObj) (url : Bool) (isDeleted : Option Bool)

def FileNode.id : FileNode → String
  | .mk i _ _ _ _ _ _ _ => i

def FileNode.name : FileNode → String
  | .mk _ n _ _ _ _ _ _ => n

def FileNode.path : FileNode → String
  | .mk _ _ p _ _ _ _ _ => p

def FileNode.type : FileNode → NodeType
  | .mk _ _ _ t _ _ _ _ => t

def FileNode.children : FileNode → List FileNode
  | .mk _ _ _ _ cs _ _ _ => cs

def FileNode.file : FileNode → Option FileObj
  | .mk _ _ _ _ _ f _ _ => f

def FileNode.url : FileNode → Bool
  | .mk _ _ _ _ _ _ u _ => u

def FileNode.isDeleted : FileNode → Option Bool
  | .mk _ _ _ _ _ _ _ d => d

/-- JSON-exportable node (src/types.ts `SerializedNode`). A `none` in
`thumbnailData` or `isDeleted` models a property that is absent or holds
`undefined`; `JSON.stringify` omits such properties from the artifact. -/
inductive SerializedNode where
  | mk (id name path : String) (type : NodeType) (children : List SerializedNode)
      (thumbnailData : Option String) (isDeleted : Option Bool)

def SerializedNode.id : SerializedNode → String
  | .mk i _ _ _ _ _ _ => i

def SerializedNode.name : SerializedNode → String
  | .mk _ n _ _ _ _ _ => n

def SerializedNode.path : SerializedNode → String
  | .mk _ _ p _ _ _ _ => p

def SerializedNode.type : SerializedNode → NodeType
  | .mk _ _ _ t _ _ _ => t

def SerializedNode.children : SerializedNode → List SerializedNode
  | .mk _ _ _ _ cs _ _ => cs

def SerializedNode.thumbnailData : SerializedNode → Option String
  | .mk _ _ _ _ _ th _ => th

def SerializedNode.isDeleted : SerializedNode → Option Bool
  | .mk _ _ _ _ _ _ d => d

/-! ## Image transcoder (`processImageForExport`) -/

/-- Short-edge target of the export scaler. -/
def SHORT_EDGE_TARGET : Nat := 1024

/-- Model of `Math.round (num / den)` for nonnegative operands (round half up),
computed exactly as `⌊num/den + 1/2⌋` with natural division. -/
def mathRound (num den : Nat) : Nat := (2 * num + den) / (2 * den)

/-- The canvas dimensions picked by `processImageForExport`: scale down
uniformly by `1024 / shortEdge` (each axis rounded independently) only when
the short edge exceeds 1024. -/
def scaledDims (width height : Nat) : Nat × Nat :=
  let shortEdge := min width height
  if SHORT_EDGE_TARGET < shortEdge then
    (mathRound (width * SHORT_EDGE_TARGET) shortEdge,
     mathRound (height * SHORT_EDGE_TARGET) shortEdge)
  else
    (width, height)

/-- Abstract model of `canvas.toDataURL('image/jpeg', 0.85)`: a mime-tagged,
always nonempty payload determined by the drawn pixels and the canvas
dimensions. -/
def jpegDataURL (pixels : String) (width height : Nat) : String :=
  "data:image/jpeg;base64," ++ pixels ++ "|" ++ toString width ++ "x" ++ toString height

/-- Model of `processImageForExport` (src/utils/fileUtils.ts). The promise always
resolves: every failure path (`reader.onerror`, `img.onerror`, a null canvas
context) resolves with the empty string, and a successful decode resolves
with the re-encoded JPEG data URL at the scaled dimensions. The decode
outcome of a `restored` file (bytes reconstructed from a snapshot blob) is
host-dependent and not modelled further; no theorem below depends on that
branch. -/
def processImageForExport : FileObj → String
  | .picked f =>
    match f.image with
    | .readError => ""
    | .decodeError => ""
    | .noContext => ""
    | .decoded w h px =>
      let dims := scaledDims w h
      jpegDataURL px dims.1 dims.2
  | .restored _ _ _ => ""

theorem mathRound_self (se : Nat) (h : 0 < se) :
    mathRound (se * SHORT_EDGE_TARGET) se = SHORT_EDGE_TARGET := by
  unfold mathRound SHORT_EDGE_TARGET
  have h1 : 2 * (se * 1024) + se = se * 2049 := by ring
  have h2 : 2 * se = se * 2 := by ring
  rw [h1, h2, Nat.mul_div_mul_left _ _ h]

theorem mathRound_target_le (se d : Nat) (hse : 0 < se) (hd : se ≤ d) :
    SHORT_EDGE_TARGET ≤ mathRound (d * SHORT_EDGE_TARGET) se := by
  have := mathRound_self se hse
  calc SHORT_EDGE_TARGET = mathRound (se * SHORT_EDGE_TARGET) se := this.symm
    _ ≤ mathRound (d * SHORT_EDGE_TARGET) se := by
        unfold mathRound
        exact Nat.div_le_div_right (by nlinarith)

/-- C4: for a decoded image, the transcoder leaves both dimensions unchanged
when the short edge is at most 1024 (no upscaling); when the short edge
exceeds 1024 it scales each axis by `1024 / min w h`, rounding each axis to
the nearest integer independently, and the resulting short edge is 1024 up
to ±1 (in fact the short-edge axis rounds to exactly 1024). -/
theorem transcoder_scaling_bounds (w h : Nat) :
    (min w h ≤ 1024 → scaledDims w h = (w, h)) ∧
    (1024 < min w h →
      scaledDims w h =
        (mathRound (w * 1024) (min w h), mathRound (h * 1024) (min w h)) ∧
      1023 ≤ min (scaledDims w h).1 (scaledDims w h).2 ∧
      min (scaledDims w h).1 (scaledDims w h).2 ≤ 1025) := by
  constructor
  · intro hle
    unfold scaledDims SHORT_EDGE_TARGET
    rw [if_neg (by omega)]
  · intro hlt
    have hpos : 0 < min w h := by omega
    have heq : scaledDims w h =
        (mathRound (w * 1024) (min w h), mathRound (h * 1024) (min w h)) := by
      unfold scaledDims SHORT_EDGE_TARGET
      rw [if_pos hlt]
    refine ⟨heq, ?_, ?_⟩
    · rw [heq]
      rcases le_total w h with hwh | hwh
      · have hm : min w h = w := min_eq_left hwh
        rw [hm] at hpos ⊢
        have h1 : mathRound (w * 1024) w = 1024 := mathRound_self w hpos
        have h2 : (1024 : Nat) ≤ mathRound (h * 1024) w :=
          mathRound_target_le w h hpos hwh
        simp only [h1]
        omega
      · have hm : min w h = h := min_eq_right hwh
        rw [hm] at hpos ⊢
        have h1 : mathRound (h * 1024) h = 1024 := mathRound_self h hpos
        have h2 : (1024 : Nat) ≤ mathRound (w * 1024) h :=
          mathRound_target_le h w hpos hwh
        simp only [h1]
        omega
    · rw [heq]
      rcases le_total w h with hwh | hwh
      · have hm : min w h = w := min_eq_left hwh
        rw [hm] at hpos ⊢
        have h1 : mathRound (w * 1024) w = 1024 := mathRound_self w hpos
        simp only [h1]
        omega
      · have hm : min w h = h := min_eq_right hwh
        rw [hm] at hpos ⊢
        have h1 : mathRound (h * 1024) h = 1024 := mathRound_self h hpos
        simp only [h1]
        omega

/-! ## Snapshot serializer (`serializeTree`) -/

mutual
/-- Model of `serializeTree` (src/utils/fileUtils.ts): builds the `SerializedNode`
and returns, alongside it, the trace of `onProgress()` invocations, each
recorded as the `id` of the node whose transcode just completed, in call
order. The thumbnail assignment and the progress call happen before the
children loop; `processImageForExport` never rejects, so the surrounding
`try/catch` never fires and the walk is total. -/
def serializeTree : FileNode → SerializedNode × List String
  | .mk id name path type children file _url isDeleted =>
    let fileStep : Option String × List String :=
      match type, file with
      | NodeType.file, some f => (some (processImageForExport f), [id])
      | _, _ => (none, [])
    let rest := serializeChildren children
    (SerializedNode.mk id name path type rest.1 fileStep.1 isDeleted,
     fileStep.2 ++ rest.2)

/-- The sequential `for (const child of node.children)` loop inside
`serializeTree`: children processed left to right, outputs appended in
that order. -/
def serializeChildren : List FileNode → List SerializedNode × List String
  | [] => ([], [])
  | c :: cs =>
    let s := serializeTree c
    let r := serializeChildren cs
    (s.1 :: r.1, s.2 ++ r.2)
end

/-! ## Snapshot deserializer (`deserializeTree`, `base64ToBlob`) -/

/-- JS `String.prototype.split` with a one-character separator, modelled on
the character list. Always returns a nonempty list of segments. -/
def splitSegs (sep : Char) : List Char → List (List Char)
  | [] => [[]]
  | c :: cs =>
    let r := splitSegs sep cs
    if c = sep then [] :: r
    else (c :: r.headD []) :: r.tail

/-- JS `s.split(sep)` for a one-character separator. -/
def jsSplit (sep : Char) (s : String) : List String :=
  (splitSegs sep s.toList).map (fun l => String.mk l)

/-- Scanner for the tail of the regex `:(.*?);` — the shortest run of
characters up to the next semicolon, or no match if none follows. -/
def takeToSemi : List Char → Option (List Char)
  | [] => none
  | c :: cs => if c = ';' then some [] else (takeToSemi cs).map (fun l => c :: l)

/-- First-match group of the regex `:(.*?);` used in `base64ToBlob` to read
the mime tag of a data URL: the text between the first colon and the next
semicolon, if both occur in that order. -/
def mimeOfList : List Char → Option (List Char)
  | [] => none
  | c :: cs => if c = ':' then takeToSemi cs else mimeOfList cs

def mimeOf (s : String) : Option String :=
  (mimeOfList s.toList).map (fun l => String.mk l)

/-- Model of `base64ToBlob` (src/utils/fileUtils.ts): split the data URL at commas,
read the mime tag out of the head segment, and `atob` the second segment.
The decoded bytes are kept abstract as the base64 text itself. The model is
total: on the typed import path the payload either is skipped as falsy or
was produced by `canvas.toDataURL`, whose output always has the shape
`data:<mime>;base64,<data>` on which `atob` succeeds. -/
def base64ToBlob (base64 : String) : Option String × String :=
  let arr := jsSplit ',' base64
  (mimeOf (arr.headD ""), arr.getD 1 "")

mutual
/-- Model of `deserializeTree` (src/utils/fileUtils.ts) on inputs of the declared
`SerializedNode` shape. Returns the restored node together with the list of
nodes pushed onto `allImagesAccumulator`, in push order (a node is pushed
before its children are walked). `isDeleted: node.isDeleted || false` reads
an absent flag as `false`; the `parent` wiring is navigation-only and
omitted. A file node is materialized (blob URL, synthesized `File`) and
accumulated exactly when its `thumbnailData` is truthy, i.e. present and
nonempty. -/
def deserializeTree : SerializedNode → FileNode × List FileNode
  | .mk id name path type children thumbnailData isDeleted =>
    let isImg : Bool :=
      type == NodeType.file &&
        (match thumbnailData with
         | some s => !(s == "")
         | none => false)
    let fileObj : Option FileObj :=
      if isImg then
        let blob := base64ToBlob (thumbnailData.getD "")
        some (FileObj.restored name blob.1 blob.2)
      else none
    let rest := deserializeChildren children
    let node := FileNode.mk id name path type rest.1 fileObj isImg
      (some (isDeleted.getD false))
    (node, (if isImg then [node] else []) ++ rest.2)

/-- The `node.children.forEach` loop inside `deserializeTree`. -/
def deserializeChildren : List SerializedNode → List FileNode × List FileNode
  | [] => ([], [])
  | c :: cs =>
    let d := deserializeTree c
    let r := deserializeChildren cs
    (d.1 :: r.1, d.2 ++ r.2)
end

/-! ## Ingestion builder (`parseFilesToTree`) -/

/-- Character-list core of `jsStartsWith`. -/
def startsWithChars : List Char → List Char → Bool
  | _, [] => true
  | [], _ :: _ => false
  | c :: cs, p :: ps => (c = p) && startsWithChars cs ps

/-- JS `String.prototype.startsWith`, modelled on character lists. -/
def jsStartsWith (s prefixStr : String) : Bool :=
  startsWithChars s.toList prefixStr.toList

/-- The root node created at the top of `parseFilesToTree`. -/
def rootInit : FileNode :=
  FileNode.mk "root" "Root" "" NodeType.folder [] none false none

/-- Model of `children.find(c => c.name === part && c.type === 'folder')`:
locate the first folder-typed child named `part`, returned as the zipper
`(before, found, after)` so that the in-place mutation of the found child
can be modelled as list surgery. -/
def findFolder (part : String) : List FileNode → Option (List FileNode × FileNode × List FileNode)
  | [] => none
  | c :: cs =>
    if c.name = part ∧ c.type = NodeType.folder then some ([], c, cs)
    else (findFolder part cs).map (fun r => (c :: r.1, r.2.1, r.2.2))

/-- The fresh folder node `parseFilesToTree` creates for segment `part`
under a node with path `parentPath`: its `id` is `parentPath ++ "/" ++ part`
unconditionally, while its `path` avoids a leading slash at the first
level. -/
def newFolder (parentPath part : String) : FileNode :=
  FileNode.mk (parentPath ++ "/" ++ part) part
    (if parentPath ≠ "" then parentPath ++ "/" ++ part else part)
    NodeType.folder [] none false none

/-- The `pathParts.forEach((part, index))` walk of `parseFilesToTree` for a
single accepted entry, starting at the given node: every segment but the
last resolves (or creates, appending to the children) a folder and descends
into it, the last appends a file node. Returns the updated subtree and the
file nodes pushed onto `allImages` (exactly one per call with a nonempty
segment list). -/
def insertParts (file : InputFile) : List String → FileNode → FileNode × List FileNode
  | [], node => (node, [])
  | part :: rest, .mk id name path type cs f u d =>
    if rest.isEmpty then
      let fileNode := FileNode.mk (path ++ "/" ++ part) part file.webkitRelativePath
        NodeType.file [] (some (FileObj.picked file)) true (some false)
      (FileNode.mk id name path type (cs ++ [fileNode]) f u d, [fileNode])
    else
      match findFolder part cs with
      | some (pre, c, post) =>
        let r := insertParts file rest c
        (FileNode.mk id name path type (pre ++ r.1 :: post) f u d, r.2)
      | none =>
        let r := insertParts file rest (newFolder path part)
        (FileNode.mk id name path type (cs ++ [r.1]) f u d, r.2)

/-- The per-entry loop body of `parseFilesToTree`: drop entries whose own
`name` starts with a dot and entries whose mime type is not `image/…`;
otherwise split `webkitRelativePath` at slashes (falling back to `[name]`
when it is unavailable) and insert. -/
def ingestOne (st : FileNode × List FileNode) (file : InputFile) :
    FileNode × List FileNode :=
  let pathParts :=
    if file.webkitRelativePath ≠ "" then jsSplit '/' file.webkitRelativePath
    else [file.name]
  if jsStartsWith file.name "." then st
  else if !(jsStartsWith file.type "image/") then st
  else
    let r := insertParts file pathParts st.1
    (r.1, st.2 ++ r.2)

/-- Model of `parseFilesToTree` (src/utils/fileUtils.ts): fold the entry loop over
the picked files, starting from the fresh root and an empty `allImages`
accumulator. -/
def parseFilesToTree (files : List InputFile) : FileNode × List FileNode :=
  files.foldl ingestOne (rootInit, [])

/-! ## Projections used by the theorems -/

/-- The per-node content compared by the round-trip property: `id`, `name`,
`path`, `type`, the effective soft-delete flag (an absent flag reads as
`false`, its documented default), and the ordered children. -/
inductive Shape where
  | mk (id name path : String) (type : NodeType) (isDeleted : Bool)
      (children : List Shape)

mutual
def strip : FileNode → Shape
  | .mk id name path type children _ _ isDeleted =>
    Shape.mk id name path type (isDeleted.getD false) (stripList children)

def stripList : List FileNode → List Shape
  | [] => []
  | c :: cs => strip c :: stripList cs
end

mutual
def sStrip : SerializedNode → Shape
  | .mk id name path type children _ isDeleted =>
    Shape.mk id name path type (isDeleted.getD false) (sStripList children)

def sStripList : List SerializedNode → List Shape
  | [] => []
  | c :: cs => sStrip c :: sStripList cs
end

mutual
/-- All nodes of a live tree in preorder (a node before its children). -/
def allNodes : FileNode → List FileNode
  | .mk id name path type cs file url d =>
    FileNode.mk id name path type cs file url d :: allNodesList cs

def allNodesList : List FileNode → List FileNode
  | [] => []
  | c :: cs => allNodes c ++ allNodesList cs
end

mutual
/-- Ids of all file-typed nodes in discovery (preorder, stored-children)
order. -/
def fileIds : FileNode → List String
  | .mk id _ _ type cs _ _ _ =>
    (if type = NodeType.file then [id] else []) ++ fileIdsList cs

def fileIdsList : List FileNode → List String
  | [] => []
  | c :: cs => fileIds c ++ fileIdsList cs
end

mutual
/-- Ids of the file-typed nodes that carry a raw-bytes `file` handle, in
discovery order — exactly the nodes for which the serializer transcodes and
reports progress. -/
def fileHandleIds : FileNode → List String
  | .mk id _ _ type cs file _ _ =>
    (match type, file with
     | NodeType.file, some _ => [id]
     | _, _ => []) ++ fileHandleIdsList cs

def fileHandleIdsList : List FileNode → List String
  | [] => []
  | c :: cs => fileHandleIds c ++ fileHandleIdsList cs
end

mutual
/-- Preorder list of `(type, isDeleted)` pairs of a live tree. -/
def typeDels : FileNode → List (NodeType × Option Bool)
  | .mk _ _ _ type cs _ _ d => (type, d) :: typeDelsList cs

def typeDelsList : List FileNode → List (NodeType × Option Bool)
  | [] => []
  | c :: cs => typeDels c ++ typeDelsList cs
end

mutual
/-- Preorder list of `(type, isDeleted)` pairs of a serialized tree; the
second component is `none` exactly when `JSON.stringify` omits the
`isDeleted` field for that node. -/
def sTypeDels : SerializedNode → List (NodeType × Option Bool)
  | .mk _ _ _ type cs _ d => (type, d) :: sTypeDelsList cs

def sTypeDelsList : List SerializedNode → List (NodeType × Option Bool)
  | [] => []
  | c :: cs => sTypeDels c ++ sTypeDelsList cs
end

mutual
/-- Preorder list of the `thumbnailData` fields of a serialized tree; an
entry is `none` exactly when the JSON artifact has no `thumbnailData`
field for that node. -/
def thumbs : SerializedNode → List (Option String)
  | .mk _ _ _ _ cs th _ => th :: thumbsList cs

def thumbsList : List SerializedNode → List (Option String)
  | [] => []
  | c :: cs => thumbs c ++ thumbsList cs
end

/-- The thumbnail the serializer attaches to a single node: present exactly
for file-typed nodes carrying a `file` handle, and then equal to the
transcoder's output for that handle. -/
def expectedThumb (n : FileNode) : Option String :=
  match n.type, n.file with
  | NodeType.file, some f => some (processImageForExport f)
  | _, _ => none

mutual
def expectedThumbs : FileNode → List (Option String)
  | .mk id name path type cs file url d =>
    expectedThumb (FileNode.mk id name path type cs file url d)
      :: expectedThumbsList cs

def expectedThumbsList : List FileNode → List (Option String)
  | [] => []
  | c :: cs => expectedThumbs c ++ expectedThumbsList cs
end

/-- Names of the folder-typed entries of a children sequence. -/
def folderNames (cs : List FileNode) : List String :=
  (cs.filter fun c => c.type == NodeType.folder).map FileNode.name

/-- Boolean pairwise-distinctness of a list of names. -/
def distinctNames : List String → Bool
  | [] => true
  | x :: xs => (!xs.contains x) && distinctNames xs

mutual
/-- At every node of the tree, no two folder-typed children share a name. -/
def foldersNodup : FileNode → Bool
  | .mk _ _ _ _ cs _ _ _ => distinctNames (folderNames cs) && foldersNodupList cs

def foldersNodupList : List FileNode → Bool
  | [] => true
  | c :: cs => foldersNodup c && foldersNodupList cs
end

mutual
/-- Invariant of trees built by the ingestion builder: folder names are
unique per children sequence, folder-typed nodes carry no `isDeleted`
field, and file-typed nodes carry `isDeleted = false` and a `file`
handle. -/
def ingestInv : FileNode → Bool
  | .mk _ _ _ type cs file _ d =>
    distinctNames (folderNames cs) &&
    (match type with
     | NodeType.folder => d == none
     | NodeType.file => (d == some false) && file.isSome) &&
    ingestInvList cs

def ingestInvList : List FileNode → Bool
  | [] => true
  | c :: cs => ingestInv c && ingestInvList cs
end

/-- Presence pattern of `isDeleted` in a `(type, isDeleted)` preorder list:
the field occurs on every file-typed node and on no folder-typed node. -/
def delPattern : List (NodeType × Option Bool) → Bool
  | [] => true
  | p :: ps =>
    (match p.1 with
     | NodeType.folder => p.2 == none
     | NodeType.file => p.2.isSome) && delPattern ps

/-! ## Serializer and deserializer correspondence lemmas -/

mutual
theorem sStrip_serializeTree (t : FileNode) : sStrip (serializeTree t).1 = strip t := by
  match t with
  | .mk id name path type children file url isDeleted =>
    simp only [serializeTree, sStrip, strip, sStrip_serializeChildren children]

theorem sStrip_serializeChildren (ts : List FileNode) :
    sStripList (serializeChildren ts).1 = stripList ts := by
  match ts with
  | [] => rfl
  | c :: cs =>
    simp only [serializeChildren, sStripList, stripList, sStrip_serializeTree c,
      sStrip_serializeChildren cs]
end

mutual
theorem strip_deserializeTree (s : SerializedNode) :
    strip (deserializeTree s).1 = sStrip s := by
  match s with
  | .mk id name path type children thumbnailData isDeleted =>
    simp only [deserializeTree, sStrip, strip, strip_deserializeChildren children,
      Option.getD_some]

theorem strip_deserializeChildren (ss : List SerializedNode) :
    stripList (deserializeChildren ss).1 = sStripList ss := by
  match ss with
  | [] => rfl
  | c :: cs =>
    simp only [deserializeChildren, sStripList, stripList, strip_deserializeTree c,
      strip_deserializeChildren cs]
end

mutual
theorem sTypeDels_serializeTree (t : FileNode) :
    sTypeDels (serializeTree t).1 = typeDels t := by
  match t with
  | .mk id name path type children file url isDeleted =>
    simp only [serializeTree, sTypeDels, typeDels,
      sTypeDels_serializeChildren children]

theorem sTypeDels_serializeChildren (ts : List FileNode) :
    sTypeDelsList (serializeChildren ts).1 = typeDelsList ts := by
  match ts with
  | [] => rfl
  | c :: cs =>
    simp only [serializeChildren, sTypeDelsList, typeDelsList,
      sTypeDels_serializeTree c, sTypeDels_serializeChildren cs]
end

mutual
theorem thumbs_serializeTree (t : FileNode) :
    thumbs (serializeTree t).1 = expectedThumbs t := by
  match t with
  | .mk id name path type children file url isDeleted =>
    have hc := thumbs_serializeChildren children
    cases type <;> cases file <;>
      simp only [serializeTree, thumbs, expectedThumbs, expectedThumb,
        FileNode.type, FileNode.file, hc]

theorem thumbs_serializeChildren (ts : List FileNode) :
    thumbsList (serializeChildren ts).1 = expectedThumbsList ts := by
  match ts with
  | [] => rfl
  | c :: cs =>
    simp only [serializeChildren, thumbsList, expectedThumbsList,
      thumbs_serializeTree c, thumbs_serializeChildren cs]
end

mutual
theorem trace_serializeTree (t : FileNode) :
    (serializeTree t).2 = fileHandleIds t := by
  match t with
  | .mk id name path type children file url isDeleted =>
    have hc := trace_serializeChildren children
    cases type <;> cases file <;>
      simp only [serializeTree, fileHandleIds, hc, List.nil_append]

theorem trace_serializeChildren (ts : List FileNode) :
    (serializeChildren ts).2 = fileHandleIdsList ts := by
  match ts with
  | [] => rfl
  | c :: cs =>
    simp only [serializeChildren, trace_serializeTree c,
      trace_serializeChildren cs, fileHandleIdsList]
end

/-- C1: for every tree produced by the ingestion builder, deserializing the
result of serializing it yields a tree in which every node has the same
`id`, `name`, `path`, `type` and effective `isDeleted` value (an absent
flag reads as its documented default `false`) as the corresponding original
node, with every folder's children in the same order. -/
theorem roundtrip_preserves_tree (files : List InputFile) :
    strip (deserializeTree (serializeTree (parseFilesToTree files).1).1).1
      = strip (parseFilesToTree files).1 := by
  rw [strip_deserializeTree, sStrip_serializeTree]

/-- C6: a per-file transcoding failure never aborts the serialization walk:
the output has the same structure as the input at every node, each node's
`thumbnailData` is exactly its own transcode result — so a failure affects
that node only, and every sibling and every other file node is still
processed and included — and each failure mode (read error, decode error,
missing rendering context) resolves to the empty payload. -/
theorem transcode_failure_isolated :
    (∀ t : FileNode, sStrip (serializeTree t).1 = strip t) ∧
    (∀ t : FileNode, thumbs (serializeTree t).1 = expectedThumbs t) ∧
    (∀ n wrp m : String,
      processImageForExport (FileObj.picked ⟨n, wrp, m, ImageOutcome.readError⟩) = "" ∧
      processImageForExport (FileObj.picked ⟨n, wrp, m, ImageOutcome.decodeError⟩) = "" ∧
      processImageForExport (FileObj.picked ⟨n, wrp, m, ImageOutcome.noContext⟩) = "") :=
  ⟨sStrip_serializeTree, thumbs_serializeTree, fun _ _ _ => ⟨rfl, rfl, rfl⟩⟩

theorem jpegDataURL_ne_empty (px : String) (w h : Nat) : jpegDataURL px w h ≠ "" := by
  unfold jpegDataURL
  intro hcontra
  have hlen := congrArg String.length hcontra
  simp only [String.length_append] at hlen
  have h23 : (0 : Nat) < "data:image/jpeg;base64,".length := by decide
  have h0 : "".length = 0 := rfl
  omega

/-- C3 amended: `thumbnailData` appears in the artifact exactly for
file-typed nodes carrying a `file` handle, holding that node's transcode
result; a transcode of a picked file yields the empty string exactly when
the pipeline failed (read error, decode error, or missing rendering
context), and a nonempty JPEG data URL exactly when the decode succeeded —
so a failed file's node carries `thumbnailData: ""` rather than omitting
the field. -/
theorem thumbnail_present_iff_file_handle :
    (∀ t : FileNode, thumbs (serializeTree t).1 = expectedThumbs t) ∧
    (∀ f : InputFile, processImageForExport (FileObj.picked f) = "" ↔
      ∀ w h px, f.image ≠ ImageOutcome.decoded w h px) := by
  refine ⟨thumbs_serializeTree, fun f => ?_⟩
  cases hf : f.image with
  | readError => simp [processImageForExport, hf]
  | decodeError => simp [processImageForExport, hf]
  | noContext => simp [processImageForExport, hf]
  | decoded w h px =>
    simp only [processImageForExport, hf]
    constructor
    · intro hempty
      exact absurd hempty (jpegDataURL_ne_empty px _ _)
    · intro hall
      exact absurd rfl (hall w h px)

/-! ## Ingestion invariants -/

theorem distinctNames_iff (xs : List String) : distinctNames xs = true ↔ xs.Nodup := by
  induction xs with
  | nil => simp [distinctNames]
  | cons x xs ih =>
    simp only [distinctNames, Bool.and_eq_true, Bool.not_eq_true', ih,
      List.nodup_cons]
    constructor
    · rintro ⟨h1, h2⟩
      refine ⟨fun hmem => ?_, h2⟩
      have he := List.elem_iff.mpr hmem
      simp only [List.contains] at h1
      rw [he] at h1
      exact Bool.noConfusion h1
    · rintro ⟨h1, h2⟩
      refine ⟨?_, h2⟩
      simp only [List.contains]
      cases he : List.elem x xs with
      | false => rfl
      | true => exact absurd (List.elem_iff.mp he) h1

theorem allNodesList_append_eq (xs ys : List FileNode) :
    allNodesList (xs ++ ys) = allNodesList xs ++ allNodesList ys := by
  induction xs with
  | nil => rfl
  | cons c cs ih => simp [allNodesList, ih]

theorem self_mem_allNodes (n : FileNode) : n ∈ allNodes n := by
  match n with
  | .mk id name path type cs f u d => simp [allNodes]

theorem ingestInvList_append (xs ys : List FileNode) :
    ingestInvList (xs ++ ys) = (ingestInvList xs && ingestInvList ys) := by
  induction xs with
  | nil => simp [ingestInvList]
  | cons c cs ih => simp [ingestInvList, ih, Bool.and_assoc]

theorem folderNames_append (xs ys : List FileNode) :
    folderNames (xs ++ ys) = folderNames xs ++ folderNames ys := by
  simp [folderNames, List.filter_append]

theorem folderNames_cons (c : FileNode) (cs : List FileNode) :
    folderNames (c :: cs) =
      (if c.type == NodeType.folder then [c.name] else []) ++ folderNames cs := by
  by_cases h : c.type = NodeType.folder <;>
    simp [folderNames, List.filter_cons, h]

/-- Lemma: `insertParts` only edits the node's children: its identifying fields and
its own flags are untouched. -/
theorem insertParts_meta (file : InputFile) (parts : List String) (n : FileNode) :
    (insertParts file parts n).1.id = n.id ∧
    (insertParts file parts n).1.name = n.name ∧
    (insertParts file parts n).1.path = n.path ∧
    (insertParts file parts n).1.type = n.type ∧
    (insertParts file parts n).1.file = n.file ∧
    (insertParts file parts n).1.isDeleted = n.isDeleted := by
  match parts, n with
  | [], node => exact ⟨rfl, rfl, rfl, rfl, rfl, rfl⟩
  | part :: rest, .mk id name path type cs f u d =>
    by_cases h : rest.isEmpty
    · simp [insertParts, h, FileNode.id, FileNode.name, FileNode.path,
        FileNode.type, FileNode.file, FileNode.isDeleted]
    · cases hf : findFolder part cs with
      | some r =>
        obtain ⟨pre, c, post⟩ := r
        simp [insertParts, h, hf, FileNode.id, FileNode.name, FileNode.path,
          FileNode.type, FileNode.file, FileNode.isDeleted]
      | none =>
        simp [insertParts, h, hf, FileNode.id, FileNode.name, FileNode.path,
          FileNode.type, FileNode.file, FileNode.isDeleted]

theorem distinctNames_append_one (xs : List String) (x : String)
    (hd : distinctNames xs = true) (hx : x ∉ xs) :
    distinctNames (xs ++ [x]) = true := by
  rw [distinctNames_iff] at hd ⊢
  refine List.nodup_append.mpr ⟨hd, List.nodup_singleton x, ?_⟩
  intro a ha hmem
  rw [List.mem_singleton] at hmem
  exact hx (hmem ▸ ha)

theorem mem_folderNames (part : String) (cs : List FileNode) :
    part ∈ folderNames cs ↔
      ∃ x ∈ cs, x.name = part ∧ x.type = NodeType.folder := by
  simp only [folderNames, List.mem_map, List.mem_filter, beq_iff_eq]
  constructor
  · rintro ⟨x, ⟨hx, ht⟩, hn⟩
    exact ⟨x, hx, hn, ht⟩
  · rintro ⟨x, hx, hn, ht⟩
    exact ⟨x, ⟨hx, ht⟩, hn⟩

theorem findFolder_some (part : String) (cs pre post : List FileNode) (c : FileNode)
    (h : findFolder part cs = some (pre, c, post)) :
    cs = pre ++ c :: post ∧ c.name = part ∧ c.type = NodeType.folder ∧
      ∀ x ∈ pre, ¬(x.name = part ∧ x.type = NodeType.folder) := by
  induction cs generalizing pre c post with
  | nil => simp [findFolder] at h
  | cons d ds ih =>
    by_cases hd : d.name = part ∧ d.type = NodeType.folder
    · rw [findFolder, if_pos hd] at h
      simp only [Option.some.injEq, Prod.mk.injEq] at h
      obtain ⟨hpre, hc, hpost⟩ := h
      subst hpre; subst hc; subst hpost
      exact ⟨rfl, hd.1, hd.2, by simp⟩
    · rw [findFolder, if_neg hd] at h
      cases hf : findFolder part ds with
      | none => rw [hf] at h; simp at h
      | some r =>
        obtain ⟨r1, r2, r3⟩ := r
        rw [hf] at h
        simp only [Option.map_some', Option.some.injEq, Prod.mk.injEq] at h
        obtain ⟨hpre, hc, hpost⟩ := h
        subst hpre; subst hc; subst hpost
        obtain ⟨hcs, hname, htype, hprev⟩ := ih r1 r3 r2 hf
        refine ⟨by simp [hcs], hname, htype, ?_⟩
        intro x hx
        rcases List.mem_cons.mp hx with hx | hx
        · exact hx ▸ hd
        · exact hprev x hx

theorem findFolder_none (part : String) (cs : List FileNode)
    (h : findFolder part cs = none) :
    ∀ x ∈ cs, ¬(x.name = part ∧ x.type = NodeType.folder) := by
  induction cs with
  | nil => simp
  | cons d ds ih =>
    by_cases hd : d.name = part ∧ d.type = NodeType.folder
    · rw [findFolder, if_pos hd] at h
      exact absurd h (by simp)
    · rw [findFolder, if_neg hd] at h
      cases hf : findFolder part ds with
      | none =>
        intro x hx
        rcases List.mem_cons.mp hx with hx | hx
        · exact hx ▸ hd
        · exact ih hf x hx
      | some r =>
        rw [hf] at h
        exact absurd h (by simp)

/-- Inserting one accepted entry preserves the ingestion invariant. -/
theorem ingestInv_insertParts (file : InputFile) (parts : List String) (n : FileNode)
    (h : ingestInv n = true) : ingestInv (insertParts file parts n).1 = true := by
  induction parts generalizing n with
  | nil => simpa [insertParts] using h
  | cons part rest ih =>
    obtain ⟨id, name, path, type, cs, f, u, d⟩ := n
    simp only [ingestInv, Bool.and_eq_true] at h
    obtain ⟨⟨hdn, hM⟩, hlist⟩ := h
    cases rest with
    | nil =>
      have hfile : ingestInv (FileNode.mk (path ++ "/" ++ part) part
          file.webkitRelativePath NodeType.file []
          (some (FileObj.picked file)) true (some false)) = true := rfl
      have hstep : (insertParts file [part] (FileNode.mk id name path type cs f u d)).1
          = FileNode.mk id name path type (cs ++ [FileNode.mk (path ++ "/" ++ part)
              part file.webkitRelativePath NodeType.file []
              (some (FileObj.picked file)) true (some false)]) f u d := rfl
      rw [hstep]
      simp only [ingestInv, Bool.and_eq_true]
      refine ⟨⟨?_, hM⟩, ?_⟩
      · rw [folderNames_append,
          show folderNames [FileNode.mk (path ++ "/" ++ part) part
            file.webkitRelativePath NodeType.file []
            (some (FileObj.picked file)) true (some false)] = [] from rfl,
          List.append_nil]
        exact hdn
      · rw [ingestInvList_append]
        simp [hlist, ingestInvList, hfile]
    | cons p2 rest2 =>
      cases hf : findFolder part cs with
      | some r =>
        obtain ⟨pre, c, post⟩ := r
        obtain ⟨hcs, hname, htype, hprev⟩ := findFolder_some part cs pre post c hf
        have hsplit : ingestInvList cs =
            (ingestInvList pre && (ingestInv c && ingestInvList post)) := by
          rw [hcs, ingestInvList_append]; rfl
        rw [hsplit, Bool.and_eq_true, Bool.and_eq_true] at hlist
        obtain ⟨hpre, hc, hpost⟩ := hlist
        have hr := ih (n := c) hc
        have hmeta := insertParts_meta file (p2 :: rest2) c
        have hstep : (insertParts file (part :: p2 :: rest2)
            (FileNode.mk id name path type cs f u d)).1
            = FileNode.mk id name path type
                (pre ++ (insertParts file (p2 :: rest2) c).1 :: post) f u d := by
          simp [insertParts, hf]
        rw [hstep]
        simp only [ingestInv, Bool.and_eq_true]
        refine ⟨⟨?_, hM⟩, ?_⟩
        · have hfn : folderNames (pre ++ (insertParts file (p2 :: rest2) c).1 :: post)
              = folderNames cs := by
            rw [hcs, folderNames_append, folderNames_append, folderNames_cons,
              folderNames_cons, hmeta.2.1, hmeta.2.2.2.1]
          rw [hfn]; exact hdn
        · rw [show pre ++ (insertParts file (p2 :: rest2) c).1 :: post
              = pre ++ ((insertParts file (p2 :: rest2) c).1 :: post) from rfl,
            ingestInvList_append]
          simp only [Bool.and_eq_true, ingestInvList]
          exact ⟨hpre, hr, hpost⟩
      | none =>
        have hnf := findFolder_none part cs hf
        have hnew : ingestInv (newFolder path part) = true := rfl
        have hr := ih (n := newFolder path part) hnew
        have hmeta := insertParts_meta file (p2 :: rest2) (newFolder path part)
        have hrname : (insertParts file (p2 :: rest2) (newFolder path part)).1.name
            = part := hmeta.2.1
        have hrtype : (insertParts file (p2 :: rest2) (newFolder path part)).1.type
            = NodeType.folder := hmeta.2.2.2.1
        have hstep : (insertParts file (part :: p2 :: rest2)
            (FileNode.mk id name path type cs f u d)).1
            = FileNode.mk id name path type
                (cs ++ [(insertParts file (p2 :: rest2) (newFolder path part)).1])
                f u d := by
          simp [insertParts, hf]
        rw [hstep]
        simp only [ingestInv, Bool.and_eq_true]
        refine ⟨⟨?_, hM⟩, ?_⟩
        · have hfn : folderNames
              (cs ++ [(insertParts file (p2 :: rest2) (newFolder path part)).1])
              = folderNames cs ++ [part] := by
            rw [folderNames_append, folderNames_cons, hrname, hrtype]
            simp [folderNames]
          rw [hfn]
          refine distinctNames_append_one _ _ hdn ?_
          intro hmem
          obtain ⟨x, hx, hxn, hxt⟩ := (mem_folderNames part cs).mp hmem
          exact hnf x hx ⟨hxn, hxt⟩
        · rw [ingestInvList_append]
          simp [hlist, ingestInvList, hr]

theorem ingestInv_ingestOne (st : FileNode × List FileNode) (f : InputFile)
    (h : ingestInv st.1 = true) : ingestInv (ingestOne st f).1 = true := by
  unfold ingestOne
  by_cases h1 : jsStartsWith f.name "."
  · simp only [h1, if_true]
    exact h
  · by_cases h2 : jsStartsWith f.type "image/"
    · simp only [h1, h2, Bool.not_true, if_false, Bool.false_eq_true]
      exact ingestInv_insertParts f _ st.1 h
    · simp only [h1, h2, Bool.not_false, if_true, if_false, Bool.false_eq_true]
      exact h

theorem ingestInv_foldl (files : List InputFile) (st : FileNode × List FileNode)
    (h : ingestInv st.1 = true) :
    ingestInv (files.foldl ingestOne st).1 = true := by
  induction files generalizing st with
  | nil => exact h
  | cons f fs ih => exact ih _ (ingestInv_ingestOne st f h)

/-- Every tree the ingestion builder produces satisfies the invariant. -/
theorem ingestInv_parse (files : List InputFile) :
    ingestInv (parseFilesToTree files).1 = true :=
  ingestInv_foldl files (rootInit, []) rfl

theorem delPattern_append (xs ys : List (NodeType × Option Bool)) :
    delPattern (xs ++ ys) = (delPattern xs && delPattern ys) := by
  induction xs with
  | nil => simp [delPattern]
  | cons p ps ih => simp [delPattern, ih, Bool.and_assoc]

mutual
theorem foldersNodup_of_ingestInv (t : FileNode) (h : ingestInv t = true) :
    foldersNodup t = true := by
  match t with
  | .mk id name path type cs f u d =>
    simp only [ingestInv, Bool.and_eq_true] at h
    simp only [foldersNodup, Bool.and_eq_true]
    exact ⟨h.1.1, foldersNodupList_of_ingestInvList cs h.2⟩

theorem foldersNodupList_of_ingestInvList (ts : List FileNode)
    (h : ingestInvList ts = true) : foldersNodupList ts = true := by
  match ts with
  | [] => rfl
  | c :: cs =>
    simp only [ingestInvList, Bool.and_eq_true] at h
    simp only [foldersNodupList, Bool.and_eq_true]
    exact ⟨foldersNodup_of_ingestInv c h.1, foldersNodupList_of_ingestInvList cs h.2⟩
end

mutual
theorem delPattern_of_ingestInv (t : FileNode) (h : ingestInv t = true) :
    delPattern (typeDels t) = true := by
  match t with
  | .mk id name path type cs f u d =>
    simp only [ingestInv, Bool.and_eq_true] at h
    have hrec := delPatternList_of_ingestInvList cs h.2
    simp only [typeDels, delPattern, Bool.and_eq_true]
    refine ⟨?_, hrec⟩
    cases type with
    | folder => exact h.1.2
    | file =>
      have hM := h.1.2
      simp only [Bool.and_eq_true, beq_iff_eq] at hM
      simp [hM.1]

theorem delPatternList_of_ingestInvList (ts : List FileNode)
    (h : ingestInvList ts = true) : delPattern (typeDelsList ts) = true := by
  match ts with
  | [] => rfl
  | c :: cs =>
    simp only [ingestInvList, Bool.and_eq_true] at h
    rw [typeDelsList, delPattern_append, Bool.and_eq_true]
    exact ⟨delPattern_of_ingestInv c h.1, delPatternList_of_ingestInvList cs h.2⟩
end

mutual
theorem handleIds_of_ingestInv (t : FileNode) (h : ingestInv t = true) :
    fileHandleIds t = fileIds t := by
  match t with
  | .mk id name path type cs file u d =>
    simp only [ingestInv, Bool.and_eq_true] at h
    have hrec := handleIdsList_of_ingestInvList cs h.2
    cases type with
    | folder => simp [fileHandleIds, fileIds, hrec]
    | file =>
      have hM := h.1.2
      simp only [Bool.and_eq_true] at hM
      cases file with
      | none => simp [Option.isSome] at hM
      | some fo => simp [fileHandleIds, fileIds, hrec]

theorem handleIdsList_of_ingestInvList (ts : List FileNode)
    (h : ingestInvList ts = true) : fileHandleIdsList ts = fileIdsList ts := by
  match ts with
  | [] => rfl
  | c :: cs =>
    simp only [ingestInvList, Bool.and_eq_true] at h
    simp only [fileHandleIdsList, fileIdsList,
      handleIds_of_ingestInv c h.1, handleIdsList_of_ingestInvList cs h.2]
end

/-- C7: in every tree produced by the ingestion builder, no children
sequence contains two folder-typed entries with the same name; and
concretely, ingesting `A/x.png` and `A/y.png` yields exactly one folder
node named `A` under the root, holding both file children in order. -/
theorem folder_children_names_unique :
    (∀ files : List InputFile, foldersNodup (parseFilesToTree files).1 = true) ∧
    stripList (parseFilesToTree
      [⟨"x.png", "A/x.png", "image/png", ImageOutcome.decoded 4 4 "px"⟩,
       ⟨"y.png", "A/y.png", "image/png", ImageOutcome.decoded 4 4 "py"⟩]).1.children =
      [Shape.mk "/A" "A" "A" NodeType.folder false
        [Shape.mk "A/x.png" "x.png" "A/x.png" NodeType.file false [],
         Shape.mk "A/y.png" "y.png" "A/y.png" NodeType.file false []]] :=
  ⟨fun files => foldersNodup_of_ingestInv _ (ingestInv_parse files), rfl⟩

/-- C2 amended: serialization copies each node's `isDeleted` verbatim, so
the output mirrors the live soft-delete state at the moment of
serialization wherever the field is set; but on ingestion-produced trees
the JSON artifact carries `isDeleted` exactly on the file nodes — folder
nodes (including the root) never have the field set in the live tree, so
`JSON.stringify` omits it for them. -/
theorem serialize_isDeleted_mirrors_live :
    (∀ t : FileNode, sTypeDels (serializeTree t).1 = typeDels t) ∧
    (∀ files : List InputFile,
      delPattern (sTypeDels (serializeTree (parseFilesToTree files).1).1) = true) := by
  refine ⟨sTypeDels_serializeTree, fun files => ?_⟩
  rw [sTypeDels_serializeTree]
  exact delPattern_of_ingestInv _ (ingestInv_parse files)

/-- C5 amended: a full serialization invokes the progress callback exactly
once per file node that carries a raw-bytes `file` handle, in discovery
(preorder, stored-children) order — so the caller-tracked count rises by
exactly one per call — and folder nodes never trigger it; on
ingestion-produced trees every file node carries a handle, so there the
callback fires exactly once per file node. -/
theorem progress_once_per_file_handle :
    (∀ t : FileNode, (serializeTree t).2 = fileHandleIds t) ∧
    (∀ files : List InputFile,
      (serializeTree (parseFilesToTree files).1).2
        = fileIds (parseFilesToTree files).1) := by
  refine ⟨trace_serializeTree, fun files => ?_⟩
  rw [trace_serializeTree]
  exact handleIds_of_ingestInv _ (ingestInv_parse files)

/-! ## Ingestion of one accepted entry (C10) -/

theorem splitSegs_ne_nil (sep : Char) (l : List Char) : splitSegs sep l ≠ [] := by
  match l with
  | [] => simp [splitSegs]
  | c :: cs =>
    simp only [splitSegs]
    split <;> simp

theorem jsSplit_ne_nil (sep : Char) (s : String) : jsSplit sep s ≠ [] := by
  unfold jsSplit
  intro h
  exact splitSegs_ne_nil sep s.toList (List.map_eq_nil_iff.mp h)

theorem mem_allNodesList_of_mem (x c : FileNode) (pre post : List FileNode)
    (h : x ∈ allNodes c) : x ∈ allNodesList (pre ++ c :: post) := by
  rw [allNodesList_append_eq]
  refine List.mem_append_right _ ?_
  show x ∈ allNodes c ++ allNodesList post
  exact List.mem_append_left _ h

/-- Each accepted entry appends exactly one file node: it lands in the flat
accumulator and in the tree, with `path` set to the entry's relative path
and the picked file attached. -/
theorem insertParts_appends (file : InputFile) (parts : List String) (n : FileNode)
    (hne : parts ≠ []) :
    ∃ fn : FileNode, (insertParts file parts n).2 = [fn] ∧
      fn.type = NodeType.file ∧ fn.path = file.webkitRelativePath ∧
      fn.file = some (FileObj.picked file) ∧
      fn ∈ allNodes (insertParts file parts n).1 := by
  induction parts generalizing n with
  | nil => exact absurd rfl hne
  | cons part rest ih =>
    obtain ⟨id, name, path, type, cs, f, u, d⟩ := n
    cases rest with
    | nil =>
      refine ⟨FileNode.mk (path ++ "/" ++ part) part file.webkitRelativePath
        NodeType.file [] (some (FileObj.picked file)) true (some false),
        rfl, rfl, rfl, rfl, ?_⟩
      exact List.mem_cons_of_mem _
        (mem_allNodesList_of_mem _ _ cs [] (self_mem_allNodes _))
    | cons p2 rest2 =>
      have hne2 : p2 :: rest2 ≠ [] := by simp
      cases hf : findFolder part cs with
      | some r =>
        obtain ⟨pre, c, post⟩ := r
        obtain ⟨fn, htr, hty, hpa, hfi, hmem⟩ := ih (n := c) hne2
        have hstep : insertParts file (part :: p2 :: rest2)
            (FileNode.mk id name path type cs f u d)
            = (FileNode.mk id name path type
                (pre ++ (insertParts file (p2 :: rest2) c).1 :: post) f u d,
               (insertParts file (p2 :: rest2) c).2) := by
          simp [insertParts, hf]
        rw [hstep]
        exact ⟨fn, htr, hty, hpa, hfi,
          List.mem_cons_of_mem _ (mem_allNodesList_of_mem fn _ pre post hmem)⟩
      | none =>
        obtain ⟨fn, htr, hty, hpa, hfi, hmem⟩ := ih (n := newFolder path part) hne2
        have hstep : insertParts file (part :: p2 :: rest2)
            (FileNode.mk id name path type cs f u d)
            = (FileNode.mk id name path type
                (cs ++ [(insertParts file (p2 :: rest2) (newFolder path part)).1])
                f u d,
               (insertParts file (p2 :: rest2) (newFolder path part)).2) := by
          simp [insertParts, hf]
        rw [hstep]
        exact ⟨fn, htr, hty, hpa, hfi,
          List.mem_cons_of_mem _ (mem_allNodesList_of_mem fn _ cs [] hmem)⟩

theorem ingestOne_accepted (st : FileNode × List FileNode) (f : InputFile)
    (hname : jsStartsWith f.name "." = false)
    (hmime : jsStartsWith f.type "image/" = true) :
    ingestOne st f =
      ((insertParts f (if f.webkitRelativePath ≠ "" then
          jsSplit '/' f.webkitRelativePath else [f.name]) st.1).1,
       st.2 ++ (insertParts f (if f.webkitRelativePath ≠ "" then
          jsSplit '/' f.webkitRelativePath else [f.name]) st.1).2) := by
  simp [ingestOne, hname, hmime]

/-- C10: the hidden-file filter tests only the entry's own base `name`: any
entry whose name does not start with '.' and whose mime type is an image is
ingested — appended to the flat accumulator and present in the tree — for
every relative path, in particular when an earlier folder segment of that
path begins with '.'. -/
theorem hidden_filter_tests_basename_only (files : List InputFile) (f : InputFile)
    (hname : jsStartsWith f.name "." = false)
    (hmime : jsStartsWith f.type "image/" = true) :
    ∃ fn : FileNode,
      (parseFilesToTree (files ++ [f])).2 = (parseFilesToTree files).2 ++ [fn] ∧
      fn.type = NodeType.file ∧ fn.path = f.webkitRelativePath ∧
      fn.file = some (FileObj.picked f) ∧
      fn ∈ allNodes (parseFilesToTree (files ++ [f])).1 := by
  have hfold : parseFilesToTree (files ++ [f])
      = ingestOne (parseFilesToTree files) f := by
    unfold parseFilesToTree
    rw [List.foldl_append]
    rfl
  have hacc := ingestOne_accepted (parseFilesToTree files) f hname hmime
  have hpp : (if f.webkitRelativePath ≠ "" then jsSplit '/' f.webkitRelativePath
      else [f.name]) ≠ [] := by
    split
    · exact jsSplit_ne_nil _ _
    · simp
  obtain ⟨fn, htr, hty, hpa, hfi, hmem⟩ :=
    insertParts_appends f _ (parseFilesToTree files).1 hpp
  rw [hfold, hacc]
  exact ⟨fn, by rw [htr], hty, hpa, hfi, hmem⟩

/-- Witness for `hidden_filter_tests_basename_only`: `.hidden/photo.png` —
a visible image inside a hidden directory — is ingested. -/
theorem hidden_filter_tests_basename_only_witness :
    jsStartsWith "photo.png" "." = false ∧
    jsStartsWith "image/png" "image/" = true ∧
    (∃ fn : FileNode,
      (parseFilesToTree ([] ++ [⟨"photo.png", ".hidden/photo.png", "image/png",
          ImageOutcome.decoded 4 4 "p"⟩])).2
        = (parseFilesToTree []).2 ++ [fn] ∧
      fn.type = NodeType.file ∧
      fn.path = InputFile.webkitRelativePath ⟨"photo.png", ".hidden/photo.png",
          "image/png", ImageOutcome.decoded 4 4 "p"⟩ ∧
      fn.file = some (FileObj.picked ⟨"photo.png", ".hidden/photo.png", "image/png",
          ImageOutcome.decoded 4 4 "p"⟩) ∧
      fn ∈ allNodes (parseFilesToTree ([] ++ [⟨"photo.png", ".hidden/photo.png",
          "image/png", ImageOutcome.decoded 4 4 "p"⟩])).1) :=
  ⟨rfl, rfl, hidden_filter_tests_basename_only [] _ rfl rfl⟩

/-! ## Dynamic import path (`handleImport` over parsed JSON) -/

/-- A parsed JSON value (`JSON.parse` output). Objects are in post-parse
form, so duplicate keys have already collapsed and field lookup takes the
first match; numbers are modelled as integers — no theorem below depends on
numeric fineness. -/
inductive JsonValue where
  | null
  | bool (b : Bool)
  | num (n : Int)
  | str (s : String)
  | arr (elts : List JsonValue)
  | obj (fields : List (String × JsonValue))

/-- JS property read `v[k]`: `none` models `undefined` (also for reads on
non-object primitives, which yield `undefined`); reads on `null` are
excluded by the caller, which models the `TypeError` they raise. -/
def jget (v : JsonValue) (k : String) : Option JsonValue :=
  match v with
  | .obj fields => (fields.find? (fun p => p.1 == k)).map (fun p => p.2)
  | _ => none

def isNull : JsonValue → Bool
  | .null => true
  | _ => false

/-- JS truthiness of a possibly-undefined value. -/
def jsTruthy : Option JsonValue → Bool
  | none => false
  | some .null => false
  | some (.bool b) => b
  | some (.num n) => !(n == 0)
  | some (.str s) => !(s == "")
  | some (.arr _) => true
  | some (.obj _) => true

/-- Check `node.type === 'file'` on a parsed value. -/
def isTypeFile (v : JsonValue) : Bool :=
  match jget v "type" with
  | some (.str s) => s == "file"
  | _ => false

/-- Base64 alphabet accepted by the host's `atob` (padding included). -/
def base64Char (c : Char) : Bool :=
  c.isAlpha || c.isDigit || (c = '+') || (c = '/') || (c = '=')

/-- Domain model of the host's `atob`: the text must consist of base64
characters and its length must not be ≡ 1 (mod 4), else `atob` throws
`InvalidCharacterError`. -/
def atobOk (s : String) : Bool :=
  !(s.length % 4 == 1) && s.toList.all base64Char

/-- The decode step of `base64ToBlob` on an arbitrary payload: the string
is split at commas and `atob` receives the second segment — or, when there
is no second segment, the coerced text "undefined", on which `atob` always
throws (its length is 9 ≡ 1 mod 4). -/
def atobStepOk (s : String) : Bool :=
  atobOk ((jsSplit ',' s).getD 1 "undefined")

/-- The node `deserializeTree` builds when run on arbitrary parsed JSON, as
JS dynamic field reads see it: the identifying fields may be `undefined`,
`isDeleted` holds `node.isDeleted || false` (the field's own value when
truthy, `false` otherwise), and `hasFile` records whether a blob URL and a
synthesized `File` were attached. -/
inductive DynNode where
  | mk (id name path type : Option JsonValue) (children : List DynNode)
      (isDeleted : JsonValue) (hasFile : Bool)

/-- Model of `x || false` for a possibly-undefined JS value. -/
def jsOrFalse (o : Option JsonValue) : JsonValue :=
  match o with
  | some x => if jsTruthy (some x) then x else .bool false
  | none => .bool false

theorem sizeOf_children_lt (v : JsonValue) (xs : List JsonValue)
    (h : jget v "children" = some (.arr xs)) : sizeOf xs < sizeOf v := by
  match v with
  | .null | .bool _ | .num _ | .str _ | .arr _ => simp [jget] at h
  | .obj fields =>
    simp only [jget] at h
    cases hf : fields.find? (fun p => p.1 == "children") with
    | none => rw [hf] at h; simp at h
    | some p =>
      rw [hf] at h
      simp only [Option.map_some', Option.some.injEq] at h
      have hmem := List.mem_of_find?_eq_some hf
      have h1 : sizeOf p < sizeOf fields := List.sizeOf_lt_of_mem hmem
      obtain ⟨a, b⟩ := p
      simp only at h
      subst h
      simp only [Prod.mk.sizeOf_spec, JsonValue.arr.sizeOf_spec] at h1 ⊢
      simp only [JsonValue.obj.sizeOf_spec]
      omega

mutual
/-- Model of `deserializeTree` (src/utils/fileUtils.ts) as the import path actually
runs it: on arbitrary parsed JSON, with no shape validation. `.error ()`
models a thrown exception — a property read on `null`, calling `.split` on
a truthy non-string `thumbnailData`, `atob` on an undecodable payload, or
`.forEach` on a truthy non-array `children`. A falsy `children` (absent,
`null`, `0`, `""`, `false`) is silently skipped, like a falsy
`thumbnailData`. Returns the node together with the nodes pushed onto the
accumulator, a node before its children. -/
def deserializeTreeDyn (v : JsonValue) : Except Unit (DynNode × List DynNode) :=
  if isNull v then .error ()
  else
    let fileStep : Except Unit Bool :=
      if isTypeFile v && jsTruthy (jget v "thumbnailData") then
        match jget v "thumbnailData" with
        | some (.str s) => if atobStepOk s then .ok true else .error ()
        | _ => .error ()
      else .ok false
    match fileStep with
    | .error _ => .error ()
    | .ok hasFile =>
      let childrenStep : Except Unit (List DynNode × List DynNode) :=
        if jsTruthy (jget v "children") then
          match hcv : jget v "children" with
          | some (.arr xs) => deserializeListDyn xs
          | _ => .error ()
        else .ok ([], [])
      match childrenStep with
      | .error _ => .error ()
      | .ok (cns, imgs) =>
        let node := DynNode.mk (jget v "id") (jget v "name") (jget v "path")
          (jget v "type") cns (jsOrFalse (jget v "isDeleted")) hasFile
        .ok (node, (if hasFile then [node] else []) ++ imgs)
termination_by sizeOf v
decreasing_by
  simp_wf
  exact sizeOf_children_lt v xs hcv

/-- The `children.forEach` loop of the dynamic walk: left to right, first
exception aborts. -/
def deserializeListDyn : List JsonValue → Except Unit (List DynNode × List DynNode)
  | [] => .ok ([], [])
  | c :: cs =>
    match deserializeTreeDyn c with
    | .error _ => .error ()
    | .ok (n, imgs) =>
      match deserializeListDyn cs with
      | .error _ => .error ()
      | .ok (ns, imgs2) => .ok (n :: ns, imgs ++ imgs2)
termination_by cs => sizeOf cs
decreasing_by
  all_goals simp_wf <;> omega
end

/-- The outcome of `handleImport` after the snapshot file's text was read. -/
inductive ImportOutcome where
  | alertInvalid
  | adopted (root : DynNode) (allImages : List DynNode)

/-- Model of `handleImport` (src/temp_App.tsx): `none` models `JSON.parse` throwing
on text that is not valid JSON; otherwise the parsed value is deserialized,
and only when the whole reconstruction finishes are the root and the
accumulator adopted into the app state (`setRootNode` …). Any exception
lands in the catch block, which shows the single "Invalid snapshot file."
alert and adopts nothing. The folder-count statistics recomputation is UI
bookkeeping and not modelled. -/
def handleImport (parsed : Option JsonValue) : ImportOutcome :=
  match parsed with
  | none => .alertInvalid
  | some v =>
    match deserializeTreeDyn v with
    | .error _ => .alertInvalid
    | .ok (root, imgs) => .adopted root imgs

/-- C8 counterexample: `\x7b"hello": 1\x7d` is valid JSON without the
required Serialized Node shape, yet the import does not fail:
`deserializeTree` performs no validation, so a degenerate tree — every
identifying field `undefined` — is adopted as the new root; no
"invalid snapshot" alert fires. -/
theorem shapeless_json_adopted :
    handleImport (some (JsonValue.obj [("hello", JsonValue.num 1)]))
      = ImportOutcome.adopted
          (DynNode.mk none none none none [] (JsonValue.bool false) false) [] ∧
    handleImport (some (JsonValue.obj [("hello", JsonValue.num 1)]))
      ≠ ImportOutcome.alertInvalid := by
  have h : deserializeTreeDyn (JsonValue.obj [("hello", JsonValue.num 1)])
      = .ok (DynNode.mk none none none none [] (JsonValue.bool false) false, []) := by
    simp [deserializeTreeDyn, jget, isNull, isTypeFile, jsTruthy, jsOrFalse]
  exact ⟨by simp [handleImport, h], by simp [handleImport, h]⟩

/-- C8 amended: the import fails as a whole — one "invalid snapshot" alert,
no tree adopted — exactly when `JSON.parse` throws or the reconstruction
itself throws (a `null` document, a truthy non-array `children`, a truthy
non-string or undecodable `thumbnailData` on a file-typed node); valid JSON
lacking the required shape is accepted without validation, and the fully
reconstructed (possibly degenerate) tree is exposed to the caller. -/
theorem import_failure_modes :
    handleImport none = ImportOutcome.alertInvalid ∧
    (∀ v : JsonValue, deserializeTreeDyn v = .error () →
      handleImport (some v) = ImportOutcome.alertInvalid) ∧
    (∀ (v : JsonValue) (r : DynNode × List DynNode), deserializeTreeDyn v = .ok r →
      handleImport (some v) = ImportOutcome.adopted r.1 r.2) := by
  refine ⟨rfl, ?_, ?_⟩
  · intro v h
    simp [handleImport, h]
  · intro v r h
    simp [handleImport, h]

/-- Witness for `import_failure_modes`: the `null` document makes the
reconstruction throw, so the import alerts; a minimal folder document is
adopted whole. -/
theorem import_failure_modes_witness :
    (deserializeTreeDyn JsonValue.null = .error () ∧
      handleImport (some JsonValue.null) = ImportOutcome.alertInvalid) ∧
    (deserializeTreeDyn (JsonValue.obj [("type", JsonValue.str "folder")])
        = .ok (DynNode.mk none none none (some (JsonValue.str "folder")) []
            (JsonValue.bool false) false, []) ∧
      handleImport (some (JsonValue.obj [("type", JsonValue.str "folder")]))
        = ImportOutcome.adopted (DynNode.mk none none none
            (some (JsonValue.str "folder")) [] (JsonValue.bool false) false) []) := by
  have h1 : deserializeTreeDyn JsonValue.null = .error () := by
    simp [deserializeTreeDyn, isNull]
  have h2 : deserializeTreeDyn (JsonValue.obj [("type", JsonValue.str "folder")])
      = .ok (DynNode.mk none none none (some (JsonValue.str "folder")) []
          (JsonValue.bool false) false, []) := by
    simp [deserializeTreeDyn, jget, isNull, isTypeFile, jsTruthy, jsOrFalse]
  exact ⟨⟨h1, import_failure_modes.2.1 _ h1⟩, ⟨h2, import_failure_modes.2.2 _ _ h2⟩⟩

/-- Witness for `thumbnail_present_iff_file_handle`: a one-file tree whose
decode fails serializes that node with an empty — but present — thumbnail
payload. -/
theorem thumbnail_present_iff_file_handle_witness :
    thumbs (serializeTree (parseFilesToTree
        [⟨"b.png", "B/b.png", "image/png", ImageOutcome.decodeError⟩]).1).1
      = expectedThumbs (parseFilesToTree
        [⟨"b.png", "B/b.png", "image/png", ImageOutcome.decodeError⟩]).1 ∧
    (processImageForExport (FileObj.picked ⟨"b.png", "B/b.png", "image/png",
        ImageOutcome.decodeError⟩) = "" ↔
      ∀ w h px, (⟨"b.png", "B/b.png", "image/png",
        ImageOutcome.decodeError⟩ : InputFile).image ≠ ImageOutcome.decoded w h px) :=
  ⟨thumbnail_present_iff_file_handle.1 _, thumbnail_present_iff_file_handle.2 _⟩

/-! ## Concrete counterexamples (C2, C3, C5) -/

/-- C2 counterexample: serializing an ingestion-produced tree yields a root
node of folder type whose `isDeleted` is undefined — `JSON.stringify`
therefore omits the field, so the artifact does not include `isDeleted`
for every folder node. -/
theorem serialized_folder_isDeleted_missing :
    (serializeTree (parseFilesToTree
        [⟨"x.png", "A/x.png", "image/png", ImageOutcome.decoded 4 4 "px"⟩]).1).1.type
      = NodeType.folder ∧
    (serializeTree (parseFilesToTree
        [⟨"x.png", "A/x.png", "image/png", ImageOutcome.decoded 4 4 "px"⟩]).1).1.isDeleted
      = none :=
  ⟨rfl, rfl⟩

/-- C3 counterexample: transcoding `A/bad.png` fails (decode error), yet the
serialized file node still carries a `thumbnailData` field — holding the
empty string — rather than omitting it: the promise resolves `''` on
failure and the serializer assigns the result unconditionally. Preorder:
root, folder `A`, file `bad.png`. -/
theorem failed_transcode_thumbnail_present_empty :
    thumbs (serializeTree (parseFilesToTree
        [⟨"bad.png", "A/bad.png", "image/png", ImageOutcome.decodeError⟩]).1).1
      = [none, none, some ""] ∧
    (some "" : Option String) ≠ none :=
  ⟨rfl, by simp⟩

/-- C5 counterexample: a tree containing one file node for which the
progress callback fires zero times — a file node restored from a snapshot
without `thumbnailData` carries no `file` handle, and the serializer
reports progress only for file nodes with a handle. -/
theorem progress_skips_fileless_node :
    fileIds (deserializeTree (SerializedNode.mk "f1" "a.png" "a.png"
        NodeType.file [] none (some false))).1 = ["f1"] ∧
    (serializeTree (deserializeTree (SerializedNode.mk "f1" "a.png" "a.png"
        NodeType.file [] none (some false))).1).2 = [] :=
  ⟨rfl, rfl⟩

/-- Witness for `transcoder_scaling_bounds`: a 800×600 image is left
unchanged, and a 4096×2048 image scales to short edge 1024 within ±1. -/
theorem transcoder_scaling_bounds_witness :
    (min 800 600 ≤ 1024 ∧ scaledDims 800 600 = (800, 600)) ∧
    (1024 < min 4096 2048 ∧
      1023 ≤ min (scaledDims 4096 2048).1 (scaledDims 4096 2048).2 ∧
      min (scaledDims 4096 2048).1 (scaledDims 4096 2048).2 ≤ 1025) :=
  ⟨⟨by decide, (transcoder_scaling_bounds 800 600).1 (by decide)⟩,
   ⟨by decide, ((transcoder_scaling_bounds 4096 2048).2 (by decide)).2.1,
    ((transcoder_scaling_bounds 4096 2048).2 (by decide)).2.2⟩⟩

end Yrc
